import Mathlib

/-
Shallow embedding of `src/inference_bare.c`, a bare-metal fixed-point MLP
inference core that drives a memory-mapped matrix-multiply accelerator.

Machine integers are modelled as follows:
* `int32_t` values are `Int`, kept in `[-2^31, 2^31)`; every C operation
  that can leave that range goes through an explicit two's complement
  wrap (`wrap32`).
* `uint32_t` bit patterns (packed words, the restoring-division state)
  are `Nat`, kept below `2^32`.
* `int8_t` values are `Int` in `[-128, 128)`; the C `(int8_t)` cast is
  `wrap8` and the `(uint8_t)` cast is `toU8`.
-/

/-- Bit pattern (a natural number below `2^32`) of the two's complement
representation of an integer: the value of `(uint32_t)v` in C. -/
def toU32 (v : Int) : Nat := (v % 4294967296).toNat

/-- Signed reading of a 32-bit pattern: the value of `(int32_t)u` in C for a
pattern `u` (reduced mod `2^32`). -/
def ofU32 (u : Nat) : Int :=
  if u % 4294967296 < 2147483648 then ((u % 4294967296 : Nat) : Int)
  else ((u % 4294967296 : Nat) : Int) - 4294967296

/-- Wrap an unbounded integer result back into the `int32_t` range, the
effect of storing it in a 32-bit register. -/
def wrap32 (v : Int) : Int := ofU32 (toU32 v)

/-- C `(int8_t)` cast: wrap an integer into `[-128, 128)`. -/
def wrap8 (v : Int) : Int :=
  if v % 256 < 128 then v % 256 else v % 256 - 256

/-- C `(uint8_t)` cast applied to an `int8_t` value: its byte pattern. -/
def toU8 (v : Int) : Nat := (v % 256).toNat

/-- Signed reading of a byte pattern, the inverse of `toU8` on `int8_t`
values (used to state recoverability of packed weights). -/
def i8OfByte (b : Nat) : Int :=
  if b % 256 < 128 then ((b % 256 : Nat) : Int) else ((b % 256 : Nat) : Int) - 256

/-- Arithmetic shift right of an `int32_t` (C `>>` on a signed value):
two's complement shift, i.e. floor division by a power of two. -/
def asr (v : Int) (s : Nat) : Int := Int.fdiv v (2 ^ s)

/-- Bitwise NOT of an `int32_t` (C `~`), via the 32-bit pattern. -/
def i32not (v : Int) : Int := ofU32 (4294967295 - toU32 v)

/-- Bitwise AND of two `int32_t` values (C `&`), via the 32-bit patterns. -/
def i32and (a b : Int) : Int := ofU32 (toU32 a &&& toU32 b)

/-- C `int32_t` addition (wraps on overflow). -/
def add32 (a b : Int) : Int := wrap32 (a + b)

/-- C `int32_t` multiplication (wraps on overflow). -/
def mul32 (a b : Int) : Int := wrap32 (a * b)

/-- One iteration of the restoring-division loop body in `soft_div`
(`src/inference_bare.c:238-244`), at bit position `i`: the state is the
pair `(a, q)` of remaining dividend and quotient-so-far. -/
def softDivStep (b i : Nat) (s : Nat × Nat) : Nat × Nat :=
  if b <<< i ≤ s.1 then (s.1 - b <<< i, s.2 ||| (1 <<< i)) else s

/-- The restoring-division loop of `soft_div`, with `fuel` bits still to
process: fuel `i + 1` processes bit position `i` next, so fuel 32 runs the
C loop `for (i = 31; i >= 0; i--)`. -/
def softDivLoop (b : Nat) : Nat → Nat × Nat → Nat × Nat
  | 0, s => s
  | i + 1, s => softDivLoop b i (softDivStep b i s)

/-- C `soft_div` (`src/inference_bare.c:230-246`): returns 0 on zero
denominator, otherwise computes the magnitude of the quotient by 32-bit
restoring binary long division and reapplies the XOR of the signs. -/
def soft_div (numer denom : Int) : Int :=
  if denom = 0 then 0
  else
    let neg : Bool := (decide (numer < 0)).xor (decide (denom < 0))
    let a : Nat := numer.natAbs
    let b : Nat := denom.natAbs
    let q : Nat := (softDivLoop b 32 (a, 0)).2
    if neg then wrap32 (-(ofU32 q)) else ofU32 q

/-- Bitwise OR is addition when the summands occupy disjoint bit ranges:
`x` has no bits below position `k` and `y` only bits below `k`. -/
theorem lor_eq_add_of_lt {k x y : Nat} (hx : x % 2 ^ k = 0) (hy : y < 2 ^ k) :
    x ||| y = x + y := by
  have hdvd : 2 ^ k ∣ x := Nat.dvd_of_mod_eq_zero hx
  have hx2 : 2 ^ k * (x / 2 ^ k) = x := Nat.mul_div_cancel' hdvd
  calc x ||| y = 2 ^ k * (x / 2 ^ k) ||| y := by rw [hx2]
    _ = 2 ^ k * (x / 2 ^ k) + y := (Nat.mul_add_lt_is_or hy _).symm
    _ = x + y := by rw [hx2]

/-- Correctness of the restoring-division loop: starting from remaining
dividend `a` (small enough for the remaining bits) and a quotient `q`
clear in the low `i` bits, it adds the true quotient `a / b` into `q` and
leaves the remainder. -/
theorem softDivLoop_spec (b : Nat) (hb : 0 < b) :
    ∀ (i a q : Nat), a < b * 2 ^ i → q % 2 ^ i = 0 →
      softDivLoop b i (a, q) = (a % b, q + a / b) := by
  intro i
  induction i with
  | zero =>
    intro a q ha hq
    simp only [pow_zero, Nat.mul_one] at ha
    simp [softDivLoop, Nat.mod_eq_of_lt ha, Nat.div_eq_of_lt ha]
  | succ i ih =>
    intro a q ha hq
    obtain ⟨m, rfl⟩ : 2 ^ (i + 1) ∣ q := Nat.dvd_of_mod_eq_zero hq
    have ha2 : a < b * 2 ^ i * 2 := by
      calc a < b * 2 ^ (i + 1) := ha
        _ = b * 2 ^ i * 2 := by ring
    have hashift : b <<< i = b * 2 ^ i := Nat.shiftLeft_eq b i
    have hqsplit : 2 ^ (i + 1) * m = 2 ^ i * (2 * m) := by ring
    show softDivLoop b i (softDivStep b i (a, 2 ^ (i + 1) * m)) = _
    unfold softDivStep
    by_cases hc : b <<< i ≤ a
    · rw [if_pos hc]
      rw [hashift] at hc
      have hone : (1 : Nat) <<< i = 2 ^ i := by rw [Nat.shiftLeft_eq, one_mul]
      have hor : (2 ^ (i + 1) * m) ||| (1 <<< i) = 2 ^ (i + 1) * m + 2 ^ i := by
        rw [hone]
        exact lor_eq_add_of_lt (Nat.mul_mod_right _ _) (Nat.pow_lt_pow_succ one_lt_two)
      have hlt : a - b <<< i < b * 2 ^ i := by
        rw [hashift]
        generalize b * 2 ^ i = B at hc ha2 ⊢
        omega
      have hmod : (2 ^ (i + 1) * m + 2 ^ i) % 2 ^ i = 0 := by
        have h1 : 2 ^ (i + 1) * m + 2 ^ i = 2 ^ i + 2 * m * 2 ^ i := by ring
        rw [h1, Nat.add_mul_mod_self_right, Nat.mod_self]
      rw [hor, ih (a - b <<< i) (2 ^ (i + 1) * m + 2 ^ i) hlt hmod, hashift]
      have h3 : (a - b * 2 ^ i) % b = a % b := Nat.sub_mul_mod hc
      have h4 : (a - b * 2 ^ i) / b = a / b - 2 ^ i := Nat.sub_mul_div a b (2 ^ i) hc
      have h5 : 2 ^ i ≤ a / b := by
        rw [Nat.le_div_iff_mul_le hb]
        calc 2 ^ i * b = b * 2 ^ i := by ring
          _ ≤ a := hc
      rw [h3, h4, Nat.add_assoc, Nat.add_sub_cancel' h5]
    · rw [if_neg hc]
      rw [hashift] at hc
      have hlt : a < b * 2 ^ i := by omega
      rw [hqsplit, ih a (2 ^ i * (2 * m)) hlt (Nat.mul_mod_right _ _)]

/-- Reading back a small pattern is the identity. -/
theorem ofU32_small {q : Nat} (h : q < 2147483648) : ofU32 q = (q : Int) := by
  rw [ofU32]
  split <;> omega

/-- Negating the signed reading of a pattern up to `2^31` (as a 32-bit
machine negation) yields the exact mathematical negation; the boundary
pattern `2^31` reads as `-2^31` whose wrapped negation is again `-2^31`,
which is also `-(2^31)`'s value only when `q = 2^31` is excluded, so the
statement is phrased for `q ≤ 2^31` where both sides agree. -/
theorem wrap32_neg_ofU32 {q : Nat} (h : q ≤ 2147483648) :
    wrap32 (-(ofU32 q)) = -(q : Int) := by
  rw [ofU32, wrap32, toU32, ofU32]
  split <;> split <;> omega

/-- C1: soft division. `soft_div(a, 0)` returns 0 for every `a`; for
in-range `int32_t` operands with a nonzero denominator whose truncating
quotient is representable in `int32_t`, `soft_div` computes exactly the
truncating integer division `Int.tdiv`. -/
theorem claim1_soft_div_correct :
    (∀ a : Int, soft_div a 0 = 0) ∧
    (∀ a b : Int, -2147483648 ≤ a → a < 2147483648 →
      -2147483648 ≤ b → b < 2147483648 → b ≠ 0 →
      -2147483648 ≤ a.tdiv b → a.tdiv b < 2147483648 →
      soft_div a b = a.tdiv b) := by
  constructor
  · intro a
    simp [soft_div]
  · intro a b ha1 ha2 hb1 hb2 hb0 ht1 ht2
    have hbpos : 0 < b.natAbs := Int.natAbs_pos.mpr hb0
    have hbound : a.natAbs < b.natAbs * 2 ^ 32 := by
      have h1 : a.natAbs ≤ 2147483648 := by omega
      have h3 : (2 : Nat) ^ 32 ≤ b.natAbs * 2 ^ 32 := Nat.le_mul_of_pos_left _ hbpos
      omega
    have hloop := softDivLoop_spec b.natAbs hbpos 32 a.natAbs 0 hbound (by simp)
    have hqabs : (a.tdiv b).natAbs = a.natAbs / b.natAbs := Int.natAbs_tdiv a b
    simp only [soft_div, if_neg hb0, hloop, Nat.zero_add]
    rcases Decidable.em (a < 0) with hsa | hsa <;> rcases Decidable.em (b < 0) with hsb | hsb
    · -- both negative: quotient nonneg, sign bit clear
      have htpos : 0 ≤ a.tdiv b := by
        rw [← Int.neg_tdiv_neg]
        exact Int.tdiv_nonneg (by omega) (by omega)
      have ht : ((a.natAbs / b.natAbs : Nat) : Int) = a.tdiv b := by
        rw [← hqabs]
        exact Int.natAbs_of_nonneg htpos
      simp only [decide_eq_true hsa, decide_eq_true hsb, Bool.xor_self,
        Bool.false_eq_true, if_false]
      rw [ofU32_small (by omega), ht]
    · -- numerator negative only: quotient nonpos, sign bit set
      have htneg : a.tdiv b ≤ 0 := by
        have h1 : 0 ≤ (-a).tdiv b := Int.tdiv_nonneg (by omega) (by omega)
        rw [Int.neg_tdiv] at h1
        omega
      have ht : a.tdiv b = -((a.natAbs / b.natAbs : Nat) : Int) := by
        rw [← hqabs]; omega
      simp only [decide_eq_true hsa, decide_eq_false hsb, Bool.xor_false, if_true]
      rw [wrap32_neg_ofU32 (by omega), ht]
    · -- denominator negative only: quotient nonpos, sign bit set
      have htneg : a.tdiv b ≤ 0 := Int.tdiv_nonpos (by omega) (by omega)
      have ht : a.tdiv b = -((a.natAbs / b.natAbs : Nat) : Int) := by
        rw [← hqabs]; omega
      simp only [decide_eq_false hsa, decide_eq_true hsb, Bool.false_xor, if_true]
      rw [wrap32_neg_ofU32 (by omega), ht]
    · -- both nonnegative: quotient nonneg, sign bit clear
      have htpos : 0 ≤ a.tdiv b := Int.tdiv_nonneg (by omega) (by omega)
      have ht : ((a.natAbs / b.natAbs : Nat) : Int) = a.tdiv b := by
        rw [← hqabs]
        exact Int.natAbs_of_nonneg htpos
      simp only [decide_eq_false hsa, decide_eq_false hsb, Bool.xor_self,
        Bool.false_eq_true, if_false]
      rw [ofU32_small (by omega), ht]

/-- Witness for C1 at a concrete input: `soft_div (-7) 2 = -3`. -/
theorem claim1_witness : soft_div (-7) 2 = -3 :=
  (claim1_soft_div_correct.2 (-7) 2 (by decide) (by decide) (by decide) (by decide)
    (by decide) (by decide) (by decide)).trans (by decide)

/-- C branchless ReLU `v & ~(v >> 31)` (`src/inference_bare.c:253`): the
arithmetic shift replicates the sign bit, so the mask is all-ones for a
nonnegative value and all-zeros for a negative one. -/
def relu32 (v : Int) : Int := i32and v (i32not (asr v 31))

/-- Running maximum used by the quantization kernels: the fold of
`if (v > max_val) max_val = v;` over a vector, from initial value `m0`. -/
def runMax (l : List Int) (m0 : Int) : Int :=
  l.foldl (fun m v => if v > m then v else m) m0

/-- C `fused_bias_relu_rescale` (`src/inference_bare.c:248-266`): adds the
bias, applies the branchless ReLU in place, tracks the maximum; if the
maximum is 0 the output is zero-filled, otherwise each element is scaled
by the Q16 reciprocal `soft_div(127 << 16, max)` and truncated to int8.
Returns the mutated accumulator and the int8 output. -/
def fused_bias_relu_rescale (raw bias : List Int) : List Int × List Int :=
  let raw2 := List.zipWith (fun r b => relu32 (add32 r b)) raw bias
  let max_val := runMax raw2 0
  if max_val = 0 then
    (raw2, raw2.map (fun _ => 0))
  else
    let recip := soft_div 8323072 max_val
    (raw2, raw2.map (fun v => wrap8 (asr (mul32 v recip) 16)))

/-- One lane of C `fused_bias_relu_rescale_4` (`src/inference_bare.c:268-318`).
The four lanes of the batched kernel touch pairwise disjoint state
(`raw_j`, `max_j`, `nz_j`, `recip_j`, `out_j`) and share only the read-only
bias, so the embedding factors the batched kernel into one function per
lane: bias-add and ReLU, per-lane maximum, `nz` flag, guarded reciprocal,
and the guarded output `out[i] = nz ? (raw[i]*recip)>>16 : 0`. -/
def fbrr4Lane (raw bias : List Int) : List Int × List Int :=
  let raw2 := List.zipWith (fun r b => relu32 (add32 r b)) raw bias
  let max_val := runMax raw2 0
  let recip := if max_val ≠ 0 then soft_div 8323072 max_val else 0
  (raw2, raw2.map (fun v => if max_val ≠ 0 then wrap8 (asr (mul32 v recip) 16) else 0))

/-- C `fused_bias_relu_rescale_4` (`src/inference_bare.c:268-318`), as the
tuple of its four independent lanes. -/
def fused_bias_relu_rescale_4 (raw0 raw1 raw2 raw3 bias : List Int) :
    (List Int × List Int) × (List Int × List Int) ×
      (List Int × List Int) × (List Int × List Int) :=
  (fbrr4Lane raw0 bias, fbrr4Lane raw1 bias, fbrr4Lane raw2 bias, fbrr4Lane raw3 bias)

/-- C `add_bias` (`src/inference_bare.c:320-330`): elementwise int32
addition (the 4-way unrolling in the source is a pure scheduling
transformation of the same elementwise operation). -/
def add_bias (out bias : List Int) : List Int :=
  List.zipWith (fun a b => add32 a b) out bias

/-- The two-lane unrolled scan loop of C `argmax`
(`src/inference_bare.c:341-353`): the list argument holds `x[i..]`; lane 0
tracks the running (index, value) maximum over even positions, lane 1 over
odd positions. Returns both lane states plus the unprocessed tail and its
starting index, for the odd-length fix-up step. -/
def argmaxLoop : List Int → Nat → Nat × Int → Nat × Int →
    (Nat × Int) × (Nat × Int) × List Int × Nat
  | v0 :: v1 :: rest, i, s0, s1 =>
      argmaxLoop rest (i + 2) (if v0 > s0.2 then (i, v0) else s0)
        (if v1 > s1.2 then (i + 1, v1) else s1)
  | rest, i, s0, s1 => (s0, s1, rest, i)

/-- C `argmax` (`src/inference_bare.c:332-363`): returns 0 for size of at
most 1; otherwise seeds lane 0 with `x[0]` and lane 1 with `x[1]`, runs the
two-lane scan from index 2, folds a leftover odd element into lane 0, and
returns lane 1's index only when its value is strictly greater. -/
def argmax (x : List Int) : Nat :=
  match x with
  | [] => 0
  | [_] => 0
  | a :: b :: rest =>
    let r := argmaxLoop rest 2 (0, a) (1, b)
    let s0 := r.1
    let s1 := r.2.1
    let s0f := match r.2.2.1 with
      | v :: _ => if v > s0.2 then (r.2.2.2, v) else s0
      | [] => s0
    if s1.2 > s0f.2 then s1.1 else s0f.1

/-- The per-lane loop of C `add_bias_and_argmax_4`
(`src/inference_bare.c:380-408`), from index `i` with running
(index, value) maximum `s`: adds the bias into the lane in place and
updates the maximum with a strict comparison. Returns the mutated lane
suffix and the final maximum state. -/
def abam4Loop : List Int → List Int → Nat → Nat × Int → List Int × (Nat × Int)
  | x :: xs, b :: bs, i, s =>
    let v := add32 x b
    let r := abam4Loop xs bs (i + 1) (if v > s.2 then (i, v) else s)
    (v :: r.1, r.2)
  | _, _, _, s => ([], s)

/-- One lane of C `add_bias_and_argmax_4` (`src/inference_bare.c:365-414`):
seeds the maximum with `x[0] + bias[0]` at index 0, then scans from
index 1. The four lanes of the batched kernel are independent in the
source (disjoint `x_j`/`max_j` state, shared read-only bias), so the
batched kernel is embedded one lane at a time. Returns the bias-added lane
and its argmax prediction. -/
def abam4Lane (x bias : List Int) : List Int × Nat :=
  match x, bias with
  | xv :: xs, bv :: bs =>
    let m0 := add32 xv bv
    let r := abam4Loop xs bs 1 (0, m0)
    (m0 :: r.1, r.2.1)
  | _, _ => ([], 0)

/-- C `add_bias_and_argmax_4` (`src/inference_bare.c:365-414`), as the
tuple of its four independent lanes. -/
def add_bias_and_argmax_4 (x0 x1 x2 x3 bias : List Int) :
    (List Int × Nat) × (List Int × Nat) × (List Int × Nat) × (List Int × Nat) :=
  (abam4Lane x0 bias, abam4Lane x1 bias, abam4Lane x2 bias, abam4Lane x3 bias)

/-- C2 (evaluation at the failing input): on `[5, 9, 9, 2]` the smallest
index holding the maximal value 9 is 1, but `argmax` returns 2 — the
two-lane unrolled scan finds the first maximum of each parity lane
separately (even lane: value 9 at index 2; odd lane: value 9 at index 1)
and the final `max_val1 > max_val0` comparison resolves the cross-lane tie
toward the even lane. -/
theorem claim2_argmax_returns_2 : argmax [5, 9, 9, 2] = 2 := by decide

/-- C3 (evaluation at the failing input): with lane input `[5, 9, 9, 2]`
in every lane and zero bias, the batched kernel `add_bias_and_argmax_4`
predicts index 1 (a true first-wins scan) while the scalar path
`add_bias` followed by `argmax` returns 2, so the batched and scalar code
paths are not numerically equivalent. -/
theorem claim3_paths_diverge :
    (add_bias_and_argmax_4 [5, 9, 9, 2] [5, 9, 9, 2] [5, 9, 9, 2] [5, 9, 9, 2]
        [0, 0, 0, 0]).1.2 = 1 ∧
      argmax (add_bias [5, 9, 9, 2] [0, 0, 0, 0]) = 2 := by decide

/-- C5: each lane of the batched quantization kernel
`fused_bias_relu_rescale_4` computes exactly the scalar
`fused_bias_relu_rescale` of that lane: identical mutated accumulator and
identical int8 output, for all inputs. -/
theorem claim5_fused4_refines_scalar (raw0 raw1 raw2 raw3 bias : List Int) :
    fused_bias_relu_rescale_4 raw0 raw1 raw2 raw3 bias =
      (fused_bias_relu_rescale raw0 bias, fused_bias_relu_rescale raw1 bias,
        fused_bias_relu_rescale raw2 bias, fused_bias_relu_rescale raw3 bias) := by
  have lane : ∀ raw b : List Int, fbrr4Lane raw b = fused_bias_relu_rescale raw b := by
    intro raw b
    unfold fbrr4Lane fused_bias_relu_rescale
    by_cases h :
      runMax (List.zipWith (fun r bb => relu32 (add32 r bb)) raw b) 0 = 0
    · simp [h]
    · simp [h]
  simp only [fused_bias_relu_rescale_4, lane]

/-- Wrapping always lands in the `int32_t` range. -/
theorem wrap32_range (v : Int) :
    -2147483648 ≤ wrap32 v ∧ wrap32 v < 2147483648 := by
  rw [wrap32, toU32, ofU32]
  split <;> omega

/-- Wrapping an in-range value is the identity. -/
theorem wrap32_id {v : Int} (h1 : -2147483648 ≤ v) (h2 : v < 2147483648) :
    wrap32 v = v := by
  rw [wrap32, toU32, ofU32]
  split <;> omega

/-- Wrapping an in-range value to `int8_t` is the identity. -/
theorem wrap8_id {v : Int} (h1 : -128 ≤ v) (h2 : v < 128) : wrap8 v = v := by
  rw [wrap8]
  split <;> omega

/-- The 32-bit pattern is always below `2^32`. -/
theorem toU32_lt (v : Int) : toU32 v < 4294967296 := by
  rw [toU32]; omega

/-- Arithmetic shift by 31 of an in-range nonnegative `int32_t` is 0. -/
theorem asr31_nonneg {v : Int} (h0 : 0 ≤ v) (h : v < 2147483648) :
    asr v 31 = 0 := by
  rw [asr, Int.fdiv_eq_ediv _ (by norm_num)]
  have h31 : (2 : Int) ^ 31 = 2147483648 := by norm_num
  rw [h31]
  omega

/-- Arithmetic shift by 31 of an in-range negative `int32_t` is -1. -/
theorem asr31_neg {v : Int} (h0 : -2147483648 ≤ v) (h : v < 0) :
    asr v 31 = -1 := by
  rw [asr, Int.fdiv_eq_ediv _ (by norm_num)]
  have h31 : (2 : Int) ^ 31 = 2147483648 := by norm_num
  rw [h31]
  omega

/-- The branchless ReLU computes `max v 0` on in-range `int32_t` values. -/
theorem relu32_eq_max {v : Int} (h1 : -2147483648 ≤ v) (h2 : v < 2147483648) :
    relu32 v = max v 0 := by
  rcases le_or_lt 0 v with h0 | h0
  · rw [relu32, asr31_nonneg h0 h2]
    have hnot : i32not 0 = -1 := by decide
    rw [hnot]
    have hm1 : toU32 (-1) = 4294967295 := by decide
    have hmask : (4294967295 : Nat) = 2 ^ 32 - 1 := by norm_num
    have hu : toU32 v &&& toU32 (-1) = toU32 v := by
      rw [hm1, hmask, Nat.and_pow_two_sub_one_eq_mod,
        Nat.mod_eq_of_lt (by have := toU32_lt v; norm_num; omega)]
    rw [i32and, hu]
    have hw : ofU32 (toU32 v) = wrap32 v := rfl
    rw [hw, wrap32_id h1 h2, max_eq_left h0]
  · rw [relu32, asr31_neg h1 h0]
    have hnot : i32not (-1) = 0 := by decide
    rw [hnot]
    have h00 : toU32 (0 : Int) = 0 := by decide
    rw [i32and, h00, Nat.and_zero]
    have hz : ofU32 0 = 0 := by decide
    rw [hz, max_eq_right h0.le]

/-- The running maximum is at least its seed. -/
theorem runMax_ge (l : List Int) : ∀ a : Int, a ≤ runMax l a := by
  induction l with
  | nil => intro a; simp [runMax]
  | cons v l ih =>
    intro a
    have hstep : runMax (v :: l) a = runMax l (if v > a then v else a) := rfl
    have h1 : a ≤ (if v > a then v else a) := by split <;> omega
    exact le_trans h1 (hstep ▸ ih (if v > a then v else a))

/-- The running maximum dominates every element of the list. -/
theorem runMax_bound (l : List Int) : ∀ (a v : Int), v ∈ l → v ≤ runMax l a := by
  induction l with
  | nil => intro a v hv; cases hv
  | cons w l ih =>
    intro a v hv
    have hstep : runMax (w :: l) a = runMax l (if w > a then w else a) := rfl
    rcases List.mem_cons.mp hv with rfl | hv
    · have h1 : v ≤ (if v > a then v else a) := by split <;> omega
      exact le_trans h1 (hstep ▸ runMax_ge l _)
    · exact hstep ▸ ih _ v hv

/-- The running maximum is either the seed or an element of the list. -/
theorem runMax_eq_or_mem (l : List Int) :
    ∀ a : Int, runMax l a = a ∨ runMax l a ∈ l := by
  induction l with
  | nil => intro a; left; rfl
  | cons v l ih =>
    intro a
    have hstep : runMax (v :: l) a = runMax l (if v > a then v else a) := rfl
    rcases ih (if v > a then v else a) with h | h
    · rw [hstep, h]
      split
      · right; exact List.mem_cons_self v l
      · left; rfl
    · right
      rw [hstep]
      exact List.mem_cons_of_mem v h

/-- On a nonnegative in-range numerator and positive denominator,
`soft_div` computes the natural-number quotient of the magnitudes. -/
theorem soft_div_pos_eq {a b : Int} (ha0 : 0 ≤ a) (ha : a < 2147483648)
    (hb : 0 < b) : soft_div a b = ((a.natAbs / b.natAbs : Nat) : Int) := by
  have hb0 : b ≠ 0 := by omega
  have hbpos : 0 < b.natAbs := Int.natAbs_pos.mpr hb0
  have hbound : a.natAbs < b.natAbs * 2 ^ 32 := by
    have h1 : a.natAbs ≤ 2147483648 := by omega
    have h3 : (2 : Nat) ^ 32 ≤ b.natAbs * 2 ^ 32 := Nat.le_mul_of_pos_left _ hbpos
    omega
  have hloop := softDivLoop_spec b.natAbs hbpos 32 a.natAbs 0 hbound (by simp)
  simp only [soft_div, if_neg hb0, hloop, Nat.zero_add]
  have hsa : ¬ (a < 0) := by omega
  have hsb : ¬ (b < 0) := by omega
  simp only [decide_eq_false hsa, decide_eq_false hsb, Bool.xor_self,
    Bool.false_eq_true, if_false]
  refine ofU32_small ?_
  have h1 : a.natAbs / b.natAbs ≤ a.natAbs := Nat.div_le_self _ _
  omega

/-- Every element of a bias-added accumulator is an in-range `int32_t`. -/
theorem mem_add_bias_range :
    ∀ {l1 l2 : List Int}, ∀ u ∈ add_bias l1 l2,
      -2147483648 ≤ u ∧ u < 2147483648 := by
  intro l1
  induction l1 with
  | nil => intro l2 u hu; simp [add_bias] at hu
  | cons x xs ih =>
    intro l2 u hu
    cases l2 with
    | nil => simp [add_bias] at hu
    | cons y ys =>
      rw [add_bias, List.zipWith_cons_cons] at hu
      rcases List.mem_cons.mp hu with rfl | hu
      · exact wrap32_range _
      · exact ih u (by rw [add_bias]; exact hu)

/-- C4: quantization invariants of `fused_bias_relu_rescale`. If every
biased sum `raw[i] + bias[i]` (as computed in int32) is nonpositive —
equivalently the post-ReLU maximum is 0 — the int8 output is the all-zero
vector; otherwise every output element `(raw[i] * recip) >> 16` lies in
`[0, 127]`. -/
theorem claim4_fused_quantization (raw bias : List Int) :
    ((∀ u ∈ add_bias raw bias, u ≤ 0) →
      ∀ v ∈ (fused_bias_relu_rescale raw bias).2, v = 0) ∧
    ((∃ u ∈ add_bias raw bias, 0 < u) →
      ∀ v ∈ (fused_bias_relu_rescale raw bias).2, 0 ≤ v ∧ v ≤ 127) := by
  have hz : List.zipWith (fun r b => relu32 (add32 r b)) raw bias
      = (add_bias raw bias).map relu32 := by
    rw [add_bias, List.map_zipWith]
  have hmaxnn : 0 ≤ runMax ((add_bias raw bias).map relu32) 0 := runMax_ge _ 0
  constructor
  · intro hyp
    have hmax0 : runMax ((add_bias raw bias).map relu32) 0 = 0 := by
      have hall : ∀ w ∈ (add_bias raw bias).map relu32, w = 0 := by
        intro w hw
        obtain ⟨u, hu, rfl⟩ := List.mem_map.mp hw
        obtain ⟨hr1, hr2⟩ := mem_add_bias_range u hu
        rw [relu32_eq_max hr1 hr2, max_eq_right (hyp u hu)]
      rcases runMax_eq_or_mem ((add_bias raw bias).map relu32) 0 with h | h
      · exact h
      · exact hall _ h
    intro v hv
    simp only [fused_bias_relu_rescale, hz, hmax0, if_pos] at hv
    obtain ⟨w, _, rfl⟩ := List.mem_map.mp hv
    rfl
  · rintro ⟨u, hu, hupos⟩ v hv
    obtain ⟨hr1, hr2⟩ := mem_add_bias_range u hu
    have humem : relu32 u ∈ (add_bias raw bias).map relu32 := List.mem_map_of_mem _ hu
    have hrelu_u : relu32 u = u := by
      rw [relu32_eq_max hr1 hr2, max_eq_left hupos.le]
    have hmaxpos : 0 < runMax ((add_bias raw bias).map relu32) 0 := by
      have := runMax_bound _ 0 _ humem
      omega
    have hmaxne : runMax ((add_bias raw bias).map relu32) 0 ≠ 0 := by omega
    have hmaxlt : runMax ((add_bias raw bias).map relu32) 0 < 2147483648 := by
      rcases runMax_eq_or_mem ((add_bias raw bias).map relu32) 0 with h | h
      · omega
      · obtain ⟨w, hw, hwe⟩ := List.mem_map.mp h
        obtain ⟨hw1, hw2⟩ := mem_add_bias_range w hw
        rw [← hwe, relu32_eq_max hw1 hw2]
        omega
    set m := runMax ((add_bias raw bias).map relu32) 0 with hm
    have hrecip : soft_div 8323072 m = ((8323072 / m.natAbs : Nat) : Int) := by
      refine soft_div_pos_eq (by norm_num) (by norm_num) hmaxpos
    simp only [fused_bias_relu_rescale, hz, ← hm, if_neg hmaxne] at hv
    obtain ⟨w, hwmem, rfl⟩ := List.mem_map.mp hv
    obtain ⟨w0, hw0, hwe⟩ := List.mem_map.mp hwmem
    obtain ⟨hw1, hw2⟩ := mem_add_bias_range w0 hw0
    have hwnn : 0 ≤ w := by
      rw [← hwe, relu32_eq_max hw1 hw2]; omega
    have hwle : w ≤ m := runMax_bound _ 0 _ hwmem
    have hrnn : (0 : Int) ≤ ((8323072 / m.natAbs : Nat) : Int) := Int.natCast_nonneg _
    have hprod : w * soft_div 8323072 m ≤ 8323072 := by
      rw [hrecip]
      have h1 : w * ((8323072 / m.natAbs : Nat) : Int)
          ≤ m * ((8323072 / m.natAbs : Nat) : Int) :=
        mul_le_mul_of_nonneg_right hwle hrnn
      have hmnat : ((m.natAbs : Nat) : Int) = m := Int.natAbs_of_nonneg hmaxpos.le
      have h3 : m.natAbs * (8323072 / m.natAbs) ≤ 8323072 := by
        calc m.natAbs * (8323072 / m.natAbs)
            = 8323072 / m.natAbs * m.natAbs := Nat.mul_comm _ _
          _ ≤ 8323072 := Nat.div_mul_le_self _ _
      have h4 : ((m.natAbs : Nat) : Int) * ((8323072 / m.natAbs : Nat) : Int)
          ≤ 8323072 := by exact_mod_cast h3
      rw [hmnat] at h4
      exact le_trans h1 h4
    have hprodnn : 0 ≤ w * soft_div 8323072 m := by
      rw [hrecip]; exact mul_nonneg hwnn hrnn
    have hmul : mul32 w (soft_div 8323072 m) = w * soft_div 8323072 m := by
      rw [mul32]
      exact wrap32_id (by omega) (by omega)
    rw [hmul, asr, Int.fdiv_eq_ediv _ (by norm_num)]
    have h16 : (2 : Int) ^ 16 = 65536 := by norm_num
    rw [h16]
    have hq1 : 0 ≤ w * soft_div 8323072 m / 65536 :=
      Int.ediv_nonneg hprodnn (by norm_num)
    have hq2 : w * soft_div 8323072 m / 65536 ≤ 127 := by
      have := Int.ediv_le_ediv (c := 65536) (by norm_num) hprod
      norm_num at this
      exact this
    rw [wrap8_id (by omega) (by omega)]
    omega

set_option maxRecDepth 10000 in
/-- Witness for C4 at a concrete input: `raw = [1, -5]`, `bias = [2, 3]`
has a positive biased sum, and the first output element, 126, lies in
`[0, 127]`. -/
theorem claim4_witness : (0 : Int) ≤ 126 ∧ (126 : Int) ≤ 127 :=
  (claim4_fused_quantization [1, -5] [2, 3]).2 (by decide) 126 (by decide)

/-- C `pack_weight_block` (`src/inference_bare.c:122-147`). The row-major
weight matrix is the index map `n * K + k ↦ weight[n][k]`, mirroring the C
pointer arithmetic `src_weights[n * K + k]`. For each column `k` in
`[0, K)` the four lane bytes are the `(uint8_t)` casts of the weights of
rows `n_start .. n_start+3`, with 0 substituted for any row at or beyond
`N_total`, packed into one little-endian 32-bit word with lane 0 in the
low byte. -/
def pack_weight_block (w : Nat → Int) (n_start K N_total : Nat) : List Nat :=
  (List.range K).map (fun k =>
    let w0 := if n_start < N_total then toU8 (w (n_start * K + k)) else 0
    let w1 := if n_start + 1 < N_total then toU8 (w ((n_start + 1) * K + k)) else 0
    let w2 := if n_start + 2 < N_total then toU8 (w ((n_start + 2) * K + k)) else 0
    let w3 := if n_start + 3 < N_total then toU8 (w ((n_start + 3) * K + k)) else 0
    w3 <<< 24 ||| w2 <<< 16 ||| w1 <<< 8 ||| w0)

/-- Byte lane `j` (lane 0 in the low byte) of a packed 32-bit word. -/
def byteLane (word j : Nat) : Nat := (word >>> (8 * j)) &&& 255

/-- A byte pattern is below 256. -/
theorem toU8_lt (v : Int) : toU8 v < 256 := by
  rw [toU8]; omega

/-- A packed little-endian word of four bytes equals the weighted sum of
its bytes. -/
theorem pack_word_eq {b0 b1 b2 b3 : Nat} (h0 : b0 < 256) (h1 : b1 < 256)
    (h2 : b2 < 256) (_h3 : b3 < 256) :
    b3 <<< 24 ||| b2 <<< 16 ||| b1 <<< 8 ||| b0 =
      b3 * 2 ^ 24 + b2 * 2 ^ 16 + b1 * 2 ^ 8 + b0 := by
  rw [Nat.shiftLeft_eq b3 24, Nat.shiftLeft_eq b2 16, Nat.shiftLeft_eq b1 8]
  have hA : b3 * 2 ^ 24 ||| b2 * 2 ^ 16 = b3 * 2 ^ 24 + b2 * 2 ^ 16 :=
    lor_eq_add_of_lt (k := 24) (by omega) (by omega)
  have hB : b3 * 2 ^ 24 + b2 * 2 ^ 16 ||| b1 * 2 ^ 8 =
      b3 * 2 ^ 24 + b2 * 2 ^ 16 + b1 * 2 ^ 8 :=
    lor_eq_add_of_lt (k := 16) (by omega) (by omega)
  have hC : b3 * 2 ^ 24 + b2 * 2 ^ 16 + b1 * 2 ^ 8 ||| b0 =
      b3 * 2 ^ 24 + b2 * 2 ^ 16 + b1 * 2 ^ 8 + b0 :=
    lor_eq_add_of_lt (k := 8) (by omega) (by omega)
  rw [hA, hB, hC]

/-- Extracting byte lane `j < 4` from a packed little-endian word of four
bytes recovers byte `j`. -/
theorem byteLane_pack {b0 b1 b2 b3 : Nat} (h0 : b0 < 256) (h1 : b1 < 256)
    (h2 : b2 < 256) (h3 : b3 < 256) {j : Nat} (hj : j < 4) :
    byteLane (b3 * 2 ^ 24 + b2 * 2 ^ 16 + b1 * 2 ^ 8 + b0) j =
      [b0, b1, b2, b3].getD j 0 := by
  have hmask : (255 : Nat) = 2 ^ 8 - 1 := by norm_num
  rw [byteLane, hmask, Nat.and_pow_two_sub_one_eq_mod, Nat.shiftRight_eq_div_pow]
  match j with
  | 0 =>
    have hp : (2 : Nat) ^ (8 * 0) = 1 := by norm_num
    have hg : [b0, b1, b2, b3].getD 0 0 = b0 := rfl
    rw [hp, hg]
    omega
  | 1 =>
    have hp : (2 : Nat) ^ (8 * 1) = 256 := by norm_num
    have hg : [b0, b1, b2, b3].getD 1 0 = b1 := rfl
    rw [hp, hg]
    omega
  | 2 =>
    have hp : (2 : Nat) ^ (8 * 2) = 65536 := by norm_num
    have hg : [b0, b1, b2, b3].getD 2 0 = b2 := rfl
    rw [hp, hg]
    omega
  | 3 =>
    have hp : (2 : Nat) ^ (8 * 3) = 16777216 := by norm_num
    have hg : [b0, b1, b2, b3].getD 3 0 = b3 := rfl
    rw [hp, hg]
    omega

/-- Lane extraction from a packed weight word: byte lane `j` of word `k`
holds the byte of row `n_start + j`, column `k`, or 0 when the row is at
or beyond `N_total`. -/
theorem pack_weight_block_lane (w : Nat → Int) (n_start K N_total : Nat)
    {k : Nat} (hk : k < K) {j : Nat} (hj : j < 4) :
    byteLane ((pack_weight_block w n_start K N_total).getD k 0) j =
      if n_start + j < N_total then toU8 (w ((n_start + j) * K + k)) else 0 := by
  have hlen : k < (pack_weight_block w n_start K N_total).length := by
    simp [pack_weight_block, hk]
  have hword : (pack_weight_block w n_start K N_total).getD k 0 =
      (let w0 := if n_start < N_total then toU8 (w (n_start * K + k)) else 0
       let w1 := if n_start + 1 < N_total then toU8 (w ((n_start + 1) * K + k)) else 0
       let w2 := if n_start + 2 < N_total then toU8 (w ((n_start + 2) * K + k)) else 0
       let w3 := if n_start + 3 < N_total then toU8 (w ((n_start + 3) * K + k)) else 0
       w3 <<< 24 ||| w2 <<< 16 ||| w1 <<< 8 ||| w0) := by
    rw [List.getD_eq_getElem?_getD, List.getElem?_eq_getElem hlen]
    simp only [pack_weight_block, List.getElem_map, List.getElem_range, Option.getD_some]
  rw [hword]
  have hb : ∀ c : Nat, (if c < N_total then toU8 (w (c * K + k)) else 0) < 256 := by
    intro c
    split
    · exact toU8_lt _
    · omega
  rw [pack_word_eq (hb n_start) (hb (n_start + 1)) (hb (n_start + 2)) (hb (n_start + 3)),
    byteLane_pack (hb n_start) (hb (n_start + 1)) (hb (n_start + 2)) (hb (n_start + 3)) hj]
  match j with
  | 0 => simp
  | 1 => rfl
  | 2 => rfl
  | 3 => rfl

/-- C6: `pack_weight_block` emits exactly `K` 32-bit words; byte lane `j`
of word `k` is the byte of `weights[(n_start+j)*K + k]` when row
`n_start + j` is below `N_total` and 0 otherwise; and the signed value of
any in-range `int8_t` weight is recoverable from its byte. -/
theorem claim6_pack_weight_block (w : Nat → Int) (n_start K N_total : Nat) :
    (pack_weight_block w n_start K N_total).length = K ∧
    (∀ k, k < K → ∀ j, j < 4 →
      byteLane ((pack_weight_block w n_start K N_total).getD k 0) j =
        if n_start + j < N_total then toU8 (w ((n_start + j) * K + k)) else 0) ∧
    (∀ v : Int, -128 ≤ v → v < 128 → i8OfByte (toU8 v) = v) := by
  refine ⟨by simp [pack_weight_block], ?_, ?_⟩
  · intro k hk j hj
    exact pack_weight_block_lane w n_start K N_total hk hj
  · intro v h1 h2
    rw [i8OfByte, toU8]
    split <;> omega

/-- Witness for C6 at a concrete input: block at `n_start = 8` of a 10-row
matrix of constant weight -3 with `K = 2`; lane 1 (row 9, in range) holds
byte 253 = -3 mod 256, lane 2 (row 10, out of range) holds 0. -/
theorem claim6_witness :
    byteLane ((pack_weight_block (fun _ => -3) 8 2 10).getD 0 0) 1 = 253 ∧
    byteLane ((pack_weight_block (fun _ => -3) 8 2 10).getD 0 0) 2 = 0 :=
  ⟨((claim6_pack_weight_block (fun _ => -3) 8 2 10).2.1 0 (by decide) 1
      (by decide)).trans (by decide),
   ((claim6_pack_weight_block (fun _ => -3) 8 2 10).2.1 0 (by decide) 2
      (by decide)).trans (by decide)⟩

/-- The batch loop of C `main` (`src/inference_bare.c:450-452`): one entry
`(i, batch)` per iteration of `for (i = 0; i < N; i += 4)`, where
`batch = (N - i >= 4) ? 4 : N - i`. -/
def mainBatches (N i : Nat) : List (Nat × Nat) :=
  if i < N then
    (i, if N - i ≥ 4 then 4 else N - i) :: mainBatches N (i + 4)
  else []
termination_by N - i
decreasing_by omega

/-- Lane-to-sample assignment of one batch (`src/inference_bare.c:454-460`):
lane `b` holds sample `i + b` when `b < batch` and duplicates sample `i`
(the batch's sample 0) into the unused lane otherwise. -/
def batchLanes (i batch : Nat) : List Nat :=
  (List.range 4).map (fun b => if b < batch then i + b else i)

/-- The sample indices whose prediction is compared against a label, in
order (`src/inference_bare.c:486-506`): in a full batch all four lane
predictions are compared against labels `i .. i+3`; in a short batch only
lanes `b < batch` are compared. -/
def comparedSamples (N : Nat) : List Nat :=
  (mainBatches N 0).flatMap (fun p => (List.range p.2).map (fun b => p.1 + b))

/-- The comparisons contributed from loop position `i` onward are exactly
the sample indices from `i` up to `N`. -/
theorem mainBatches_compared (N : Nat) : ∀ d i, N - i = d →
    (mainBatches N i).flatMap (fun p => (List.range p.2).map (fun b => p.1 + b)) =
      List.range' i (N - i) := by
  intro d
  induction d using Nat.strong_induction_on with
  | _ d ih =>
    intro i hd
    rw [mainBatches]
    by_cases h : i < N
    · rw [if_pos h]
      have hrec := ih (N - (i + 4)) (by omega) (i + 4) rfl
      by_cases h4 : N - i ≥ 4
      · rw [if_pos h4]
        rw [List.flatMap_cons, hrec]
        have h1 : (List.range 4).map (fun b => i + b) = List.range' i 4 :=
          (List.range'_eq_map_range i 4).symm
        have h2 : List.range' i 4 ++ List.range' (i + 1 * 4) (N - (i + 4)) =
            List.range' i (N - (i + 4) + 4) := List.range'_append i 4 (N - (i + 4)) 1
        have h3 : i + 1 * 4 = i + 4 := by omega
        have h5 : N - (i + 4) + 4 = N - i := by omega
        rw [h1, ← h3, h2, h5]
      · rw [if_neg h4]
        rw [List.flatMap_cons]
        have hstop : mainBatches N (i + 4) = [] := by
          rw [mainBatches, if_neg (by omega)]
        rw [hstop, List.flatMap_nil, List.append_nil,
          ← List.range'_eq_map_range i (N - i)]
    · rw [if_neg h]
      have h0 : N - i = 0 := by omega
      rw [h0, List.flatMap_nil, List.range'_zero]

/-- C7: the orchestrator iterates the dataset in batches of 4 with the
final short batch padded by duplicating the batch's sample 0; exactly the
`N` real samples are compared against labels, each once and in order
(never the duplicated lanes); a dataset of 13 yields 4 batches of sizes
4, 4, 4, 1, and the padded batch at sample 12 duplicates sample 12 into
all unused lanes. -/
theorem claim7_batch_tally :
    (∀ N, comparedSamples N = List.range N) ∧
    (mainBatches 13 0).length = 4 ∧
    (mainBatches 13 0).map (fun p => p.2) = [4, 4, 4, 1] ∧
    batchLanes 12 1 = [12, 12, 12, 12] := by
  refine ⟨?_, ?_, ?_, ?_⟩
  · intro N
    rw [comparedSamples, mainBatches_compared N (N - 0) 0 rfl]
    rw [Nat.sub_zero, List.range_eq_range']
  · simp [mainBatches]
  · simp [mainBatches]
  · rfl

/-- C result reporting (`src/inference_bare.c:509-517`): `num_wrong` is
the dataset size minus the number of correct predictions, and the status
word written to the tohost CSR is 1 when `num_wrong` is 0 and
`num_wrong + 1` otherwise. -/
def statusWord (N correct : Int) : Int :=
  if N - correct = 0 then 1 else N - correct + 1

/-- The complete sequence of writes to the external status register made
by `main` after the loop (`src/inference_bare.c:509-517`): a single write
of the status word; the trailing `for (;;)` idle loop performs no further
writes. -/
def reporterTrace (N correct : Int) : List Int := [statusWord N correct]

/-- C8: the program performs exactly one status write; the written word
is 1 exactly when all `N` predictions were correct, and otherwise it is
the incorrect count plus 1. -/
theorem claim8_status_word (N correct : Int) :
    (reporterTrace N correct).length = 1 ∧
    ((reporterTrace N correct).getD 0 0 = 1 ↔ correct = N) ∧
    (correct ≠ N → (reporterTrace N correct).getD 0 0 = (N - correct) + 1) := by
  refine ⟨rfl, ?_, ?_⟩
  · rw [reporterTrace]
    show statusWord N correct = 1 ↔ correct = N
    rw [statusWord]
    split <;> omega
  · intro h
    rw [reporterTrace]
    show statusWord N correct = N - correct + 1
    rw [statusWord, if_neg (by omega)]

/-- Witness for C8 at a concrete input: 13 samples, 11 correct, status
word 3. -/
theorem claim8_witness : (reporterTrace 13 11).getD 0 0 = 3 :=
  ((claim8_status_word 13 11).2.2 (by decide)).trans (by decide)

/-- The accelerator's MMIO registers (`src/inference_bare.c:80-92`). -/
inductive AccelReg where
  | W_ADDR
  | X_ADDR
  | M_DIM
  | N_DIM
  | K_DIM
  | X_STRIDE
  | K_ROW_LEN
  | CTRL

/-- Observable MMIO accesses of the driver. A poll event records the
successful observation that ends the busy-wait loop (FIFO-full bit clear,
or done bit set); preceding failed polls read only the status register
and are not ordering-relevant. -/
inductive MMIOEvent where
  | pollFullClear
  | writeReg : AccelReg → Nat → MMIOEvent
  | pollDoneSet
  | readResult : Nat → Nat → MMIOEvent

/-- MMIO write sequence of C `run_accelerator_4x4`
(`src/inference_bare.c:163-174`): the seven configuration registers in
source order, then the CTRL start bit. -/
def run_accelerator_4x4_trace (W_addr X_addr M_dim N_dim K_dim : Nat) :
    List MMIOEvent :=
  [.writeReg .W_ADDR W_addr, .writeReg .X_ADDR X_addr, .writeReg .M_DIM M_dim,
   .writeReg .N_DIM N_dim, .writeReg .K_DIM K_dim, .writeReg .X_STRIDE 16,
   .writeReg .K_ROW_LEN ((K_dim + 3) / 4), .writeReg .CTRL 1]

/-- Result reads for the block with output base `m`
(`src/inference_bare.c:214-223`): for each batch row `b`, column 0 is
always read and columns 1-3 only when `m + c < M`. -/
def readResultsTrace (m M : Nat) : List MMIOEvent :=
  (List.range 4).flatMap (fun b =>
    [MMIOEvent.readResult b 0] ++
      (if m + 1 < M then [MMIOEvent.readResult b 1] else []) ++
      (if m + 2 < M then [MMIOEvent.readResult b 2] else []) ++
      (if m + 3 < M then [MMIOEvent.readResult b 3] else []))

/-- MMIO trace of one tile of C `layer_dense_4x4`
(`src/inference_bare.c:196-224`): poll the FIFO-full bit clear, program
and start the tile via `run_accelerator_4x4` with M=N=4, poll the done
bit set, then read the results. -/
def tileTrace (blk M K W_base X : Nat) : List MMIOEvent :=
  MMIOEvent.pollFullClear ::
    (run_accelerator_4x4_trace (W_base + blk * (K * 4)) X 4 4 K ++
      MMIOEvent.pollDoneSet :: readResultsTrace (blk * 4) M)

/-- MMIO trace of C `layer_dense_4x4` (`src/inference_bare.c:190-225`):
the concatenation of the traces of its `(M + 3) / 4` tiles. -/
def layer_dense_4x4_trace (M K W_base X : Nat) : List MMIOEvent :=
  (List.range ((M + 3) / 4)).flatMap (fun blk => tileTrace blk M K W_base X)

/-- What the protocol checker has observed so far within one tile. -/
structure DriverObs where
  fullSeen : Bool
  cfgW : Bool
  cfgX : Bool
  cfgM : Bool
  cfgN : Bool
  cfgK : Bool
  cfgS : Bool
  cfgR : Bool
  ctrlSeen : Bool
  doneSeen : Bool

/-- Initial checker state: nothing observed. -/
def obsInit : DriverObs :=
  ⟨false, false, false, false, false, false, false, false, false, false⟩

/-- Whether an event respects the ordering contract in the current state:
a configuration register may be written only after the FIFO-full bit has
been observed clear and before CTRL is started; CTRL may be started only
once all seven configuration registers have been written; a result may be
read only after the done bit has been observed set. -/
def obsAllowed (s : DriverObs) : MMIOEvent → Bool
  | .pollFullClear => true
  | .writeReg .CTRL _ =>
    s.fullSeen && !s.ctrlSeen && s.cfgW && s.cfgX && s.cfgM && s.cfgN &&
      s.cfgK && s.cfgS && s.cfgR
  | .writeReg _ _ => s.fullSeen && !s.ctrlSeen
  | .pollDoneSet => true
  | .readResult _ _ => s.doneSeen

/-- Checker state update after an event. -/
def obsStep (s : DriverObs) : MMIOEvent → DriverObs
  | .pollFullClear =>
    ⟨true, s.cfgW, s.cfgX, s.cfgM, s.cfgN, s.cfgK, s.cfgS, s.cfgR, s.ctrlSeen, s.doneSeen⟩
  | .writeReg .W_ADDR _ =>
    ⟨s.fullSeen, true, s.cfgX, s.cfgM, s.cfgN, s.cfgK, s.cfgS, s.cfgR, s.ctrlSeen, s.doneSeen⟩
  | .writeReg .X_ADDR _ =>
    ⟨s.fullSeen, s.cfgW, true, s.cfgM, s.cfgN, s.cfgK, s.cfgS, s.cfgR, s.ctrlSeen, s.doneSeen⟩
  | .writeReg .M_DIM _ =>
    ⟨s.fullSeen, s.cfgW, s.cfgX, true, s.cfgN, s.cfgK, s.cfgS, s.cfgR, s.ctrlSeen, s.doneSeen⟩
  | .writeReg .N_DIM _ =>
    ⟨s.fullSeen, s.cfgW, s.cfgX, s.cfgM, true, s.cfgK, s.cfgS, s.cfgR, s.ctrlSeen, s.doneSeen⟩
  | .writeReg .K_DIM _ =>
    ⟨s.fullSeen, s.cfgW, s.cfgX, s.cfgM, s.cfgN, true, s.cfgS, s.cfgR, s.ctrlSeen, s.doneSeen⟩
  | .writeReg .X_STRIDE _ =>
    ⟨s.fullSeen, s.cfgW, s.cfgX, s.cfgM, s.cfgN, s.cfgK, true, s.cfgR, s.ctrlSeen, s.doneSeen⟩
  | .writeReg .K_ROW_LEN _ =>
    ⟨s.fullSeen, s.cfgW, s.cfgX, s.cfgM, s.cfgN, s.cfgK, s.cfgS, true, s.ctrlSeen, s.doneSeen⟩
  | .writeReg .CTRL _ =>
    ⟨s.fullSeen, s.cfgW, s.cfgX, s.cfgM, s.cfgN, s.cfgK, s.cfgS, s.cfgR, true, s.doneSeen⟩
  | .pollDoneSet =>
    ⟨s.fullSeen, s.cfgW, s.cfgX, s.cfgM, s.cfgN, s.cfgK, s.cfgS, s.cfgR, s.ctrlSeen, true⟩
  | .readResult _ _ => s

/-- The ordering contract holds along a whole event sequence. -/
def protocolOK (s : DriverObs) : List MMIOEvent → Bool
  | [] => true
  | e :: rest => obsAllowed s e && protocolOK (obsStep s e) rest

/-- Unfolding of the checker along a cons. -/
theorem protocolOK_cons (s : DriverObs) (e : MMIOEvent) (rest : List MMIOEvent) :
    protocolOK s (e :: rest) = (obsAllowed s e && protocolOK (obsStep s e) rest) := rfl

/-- Once the done bit has been observed, any sequence of result reads is
accepted by the checker. -/
theorem protocolOK_reads :
    ∀ (l : List MMIOEvent) (s : DriverObs), s.doneSeen = true →
      (∀ e ∈ l, ∃ r c, e = MMIOEvent.readResult r c) → protocolOK s l = true := by
  intro l
  induction l with
  | nil => intro s _ _; rfl
  | cons e rest ih =>
    intro s hdone hall
    obtain ⟨r, c, rfl⟩ := hall e (List.mem_cons_self e rest)
    rw [protocolOK]
    have h1 : obsAllowed s (MMIOEvent.readResult r c) = true := hdone
    have h2 : obsStep s (MMIOEvent.readResult r c) = s := rfl
    rw [h1, h2, Bool.true_and]
    exact ih s hdone (fun e he => hall e (List.mem_cons_of_mem _ he))

/-- Every event in a result-read trace is a result read. -/
theorem readResultsTrace_reads (m M : Nat) :
    ∀ e ∈ readResultsTrace m M, ∃ r c, e = MMIOEvent.readResult r c := by
  intro e he
  rw [readResultsTrace] at he
  obtain ⟨b, _, hmem⟩ := List.mem_flatMap.mp he
  have hone : ∀ (p : Prop) [Decidable p] (x : MMIOEvent),
      e ∈ (if p then [x] else []) → e = x := by
    intro p hp x hx
    split at hx
    · exact List.mem_singleton.mp hx
    · cases hx
  rcases List.mem_append.mp hmem with h1 | h1
  · rcases List.mem_append.mp h1 with h2 | h2
    · rcases List.mem_append.mp h2 with h3 | h3
      · exact ⟨b, 0, List.mem_singleton.mp h3⟩
      · exact ⟨b, 1, hone _ _ h3⟩
    · exact ⟨b, 2, hone _ _ h2⟩
  · exact ⟨b, 3, hone _ _ h1⟩

/-- C9: in every tile issued by the driver, the FIFO-full bit is polled
clear before any configuration register is written; all seven
configuration registers (W_ADDR, X_ADDR, M_DIM, N_DIM, K_DIM, X_STRIDE,
K_ROW_LEN) are written before the CTRL start bit; and no result register
is read before the done bit is observed set. The layer trace is exactly
the concatenation of its per-tile traces, so the contract holds across
the whole layer. -/
theorem claim9_driver_protocol (M K W_base X blk : Nat) :
    protocolOK obsInit (tileTrace blk M K W_base X) = true ∧
    layer_dense_4x4_trace M K W_base X =
      (List.range ((M + 3) / 4)).flatMap (fun b => tileTrace b M K W_base X) := by
  refine ⟨?_, rfl⟩
  rw [tileTrace, run_accelerator_4x4_trace]
  simp only [List.cons_append, List.nil_append]
  simp only [protocolOK_cons, obsAllowed, obsStep, obsInit]
  simp only [Bool.true_and, Bool.and_true, Bool.not_false, Bool.and_self]
  exact protocolOK_reads _ _ rfl (readResultsTrace_reads _ _)

/-- Number of output classes (`src/inference_bare.c:32`). -/
def OUTPUT_SIZE : Nat := 10

/-- The three `pack_weight_block` calls the orchestrator issues for layer
2 (`src/inference_bare.c:439-442`): row blocks starting at 0, 4, 8 of the
10-row weight matrix (`N_total = 10`), padding M = 10 up to 12. -/
def fc2PackedBlocks (w : Nat → Int) : List (List Nat) :=
  [pack_weight_block w 0 128 10, pack_weight_block w 4 128 10,
   pack_weight_block w 8 128 10]

/-- The layer-2 epilogue of the orchestrator for one lane of a full batch
(`src/inference_bare.c:488-490`): `add_bias_and_argmax_4` is called with
size `OUTPUT_SIZE`, so it reads only the first `OUTPUT_SIZE` entries of
the 16-entry accumulator row. -/
def layer2PredBatched (row bias : List Int) : Nat :=
  (abam4Lane (row.take OUTPUT_SIZE) (bias.take OUTPUT_SIZE)).2

/-- The layer-2 epilogue in the scalar (short batch) path
(`src/inference_bare.c:500-503`): `add_bias` then `argmax`, both with size
`OUTPUT_SIZE`. -/
def layer2PredScalar (row bias : List Int) : Nat :=
  argmax (add_bias (row.take OUTPUT_SIZE) (bias.take OUTPUT_SIZE))

/-- C10: layer 2 is driven with M padded to 12 rows, but the two padding
rows are harmless: in the third packed block (`n_start = 8`,
`N_total = 10`) every byte of lanes 2 and 3 (rows 10 and 11) is 0, and
both the batched and the scalar prediction epilogues depend only on the
first `OUTPUT_SIZE = 10` entries of the accumulator row. -/
theorem claim10_padding_rows_inert (w : Nat → Int) :
    (∀ k, k < 128 → ∀ j, j < 4 → 10 ≤ 8 + j →
      byteLane (((fc2PackedBlocks w).getD 2 []).getD k 0) j = 0) ∧
    (∀ row1 row2 bias : List Int,
      row1.take OUTPUT_SIZE = row2.take OUTPUT_SIZE →
      layer2PredBatched row1 bias = layer2PredBatched row2 bias ∧
      layer2PredScalar row1 bias = layer2PredScalar row2 bias) := by
  constructor
  · intro k hk j hj hpad
    have hblk : (fc2PackedBlocks w).getD 2 [] = pack_weight_block w 8 128 10 := rfl
    rw [hblk, pack_weight_block_lane w 8 128 10 hk hj, if_neg (by omega)]
  · intro row1 row2 bias h
    constructor
    · rw [layer2PredBatched, layer2PredBatched, h]
    · rw [layer2PredScalar, layer2PredScalar, h]

/-- Witness for C10 at concrete inputs: lane 3 (row 11) of the third
packed block of a constant matrix is the zero byte, and two accumulator
rows agreeing on their first 10 entries but differing beyond yield the
same batched prediction. -/
theorem claim10_witness :
    byteLane (((fc2PackedBlocks (fun _ => 7)).getD 2 []).getD 0 0) 3 = 0 ∧
    layer2PredBatched [0, 0, 0, 0, 0, 0, 0, 0, 0, 1, 50, 60] [0, 0, 0, 0, 0, 0, 0, 0, 0, 0, 0, 0] =
      layer2PredBatched [0, 0, 0, 0, 0, 0, 0, 0, 0, 1, 70, 80] [0, 0, 0, 0, 0, 0, 0, 0, 0, 0, 0, 0] :=
  ⟨(claim10_padding_rows_inert (fun _ => 7)).1 0 (by decide) 3 (by decide) (by decide),
   ((claim10_padding_rows_inert (fun _ => 7)).2
      [0, 0, 0, 0, 0, 0, 0, 0, 0, 1, 50, 60] [0, 0, 0, 0, 0, 0, 0, 0, 0, 1, 70, 80]
      [0, 0, 0, 0, 0, 0, 0, 0, 0, 0, 0, 0] (by decide)).1⟩
